import Mathlib

/-!
Verification of src/snake/activations.py (class Snake).

The source defines a PyTorch module with
  __init__(in_features, alpha = None, alpha_trainable = True)
and
  forward(x) = x + (1.0/self.alpha) * pow(sin(x * self.alpha), 2).

We shallowly embed the module and the fragments of the torch library it
touches.  Tensors are lists of scalars (1-D) or lists of rows (2-D, all
leading dimensions collapsed into the row index).  Machine floats are
idealised as elements of a linearly ordered field K, with the sine
function passed as a parameter, so that every definition stays
executable; theorems instantiate K with ℝ and the parameter with
Real.sin.  Where division by zero matters, a separate extended value type
with infinities and a NaN element refines the scalar domain.  Fallible
library calls return Except.
-/

/-- Errors raised by the modelled torch library calls. -/
inductive PyError where
  /-- Python TypeError, e.g. an int where an iterable is required. -/
  | typeError : PyError
  /-- torch RuntimeError, e.g. a negative tensor dimension. -/
  | runtimeError : PyError
deriving DecidableEq, Repr

/-- The Python attribute names assigned on the parameter object in the
source: line 50 writes the attribute named requiresGrad, which is distinct
from the autograd flag requires_grad. -/
inductive AttrName where
  | requires_grad : AttrName
  | requiresGrad : AttrName
deriving DecidableEq, Repr

/-- Model of torch.nn.Parameter: the tensor data, the autograd flag
requires_grad (True by default when a Parameter is constructed), and any
further Python attributes set on the object, which autograd ignores. -/
structure Parameter (K : Type) where
  data : List K
  requires_grad : Bool
  pyattrs : List (AttrName × Bool)

/-- Parameter(t): wraps a tensor, requires_grad defaults to True. -/
def Parameter.make {K : Type} (t : List K) : Parameter K :=
  { data := t, requires_grad := true, pyattrs := [] }

/-- Python attribute assignment on a Parameter object: assigning to the
name requires_grad sets the autograd flag; assigning to any other name
(here requiresGrad) just stores a plain Python attribute that autograd
never consults. -/
def setAttr {K : Type} (p : Parameter K) (n : AttrName) (v : Bool) : Parameter K :=
  match n with
  | AttrName.requires_grad => { p with requires_grad := v }
  | AttrName.requiresGrad => { p with pyattrs := (AttrName.requiresGrad, v) :: p.pyattrs }

/-- torch.ones(n): a tensor of n ones; raises RuntimeError for a negative
dimension. -/
def torchOnes {K : Type} [LinearOrderedField K] (n : ℤ) : Except PyError (List K) :=
  if n < 0 then Except.error PyError.runtimeError
  else Except.ok (List.replicate n.toNat 1)

/-- The Python-level argument passed as sample_shape to
torch.distributions.Distribution.sample: either an int (as the source
passes in_features) or a tuple of dimensions. -/
inductive SampleShapeArg where
  | ofInt : ℤ → SampleShapeArg
  | ofTuple : List ℕ → SampleShapeArg

/-- torch.Size(arg): converts sample_shape to a shape; an int is not
iterable, so it raises TypeError. -/
def toTorchSize : SampleShapeArg → Except PyError (List ℕ)
  | SampleShapeArg.ofInt _ => Except.error PyError.typeError
  | SampleShapeArg.ofTuple ds => Except.ok ds

/-- Exponential(torch.tensor([rate])).sample(arg): the distribution has
batch shape [1], so a successful call returns a tensor of shape
sample_shape ++ [1]; we return its flattened entries, drawn from the
entropy stream (the abstracted RNG).  The call first coerces arg through
torch.Size, so an int argument raises TypeError before any sampling. -/
def expSample {K : Type} (rate : K) (arg : SampleShapeArg) (entropy : ℕ → K) :
    Except PyError (List K) :=
  match toTorchSize arg with
  | Except.error e => Except.error e
  | Except.ok dims =>
      let _ := rate
      Except.ok (List.map entropy (List.range (dims.prod * 1)))

/-- The Snake module state: the recorded in_features and the parameter
self.alpha. -/
structure Snake (K : Type) where
  in_features : ℤ
  alpha : Parameter K

/-- Snake.__init__(in_features, alpha, alpha_trainable): records
in_features; if alpha is provided builds Parameter(torch.ones(in_features)
* alpha), otherwise builds Parameter(Exponential(tensor([0.1])).sample(
in_features)) — note the source passes the int in_features itself as
sample_shape; finally executes line 50, self.alpha.requiresGrad =
alpha_trainable.  entropy abstracts the sampler randomness. -/
def Snake.init {K : Type} [LinearOrderedField K] (in_features : ℤ)
    (alpha : Option K) (alpha_trainable : Bool) (entropy : ℕ → K) :
    Except PyError (Snake K) :=
  match alpha with
  | some c =>
      match torchOnes in_features with
      | Except.error e => Except.error e
      | Except.ok ones =>
          let p := Parameter.make (ones.map (fun v => v * c))
          Except.ok { in_features := in_features,
                      alpha := setAttr p AttrName.requiresGrad alpha_trainable }
  | none =>
      match expSample (0.1 : K) (SampleShapeArg.ofInt in_features) entropy with
      | Except.error e => Except.error e
      | Except.ok s =>
          let p := Parameter.make s
          Except.ok { in_features := in_features,
                      alpha := setAttr p AttrName.requiresGrad alpha_trainable }

/-- One step of an external gradient-descent optimizer on a parameter:
autograd records a gradient only when requires_grad is set, so the step
updates the data exactly when requires_grad is true and leaves the
parameter untouched otherwise. -/
def sgdStep {K : Type} [LinearOrderedField K] (lr : K) (grad : List K)
    (p : Parameter K) : Parameter K :=
  if p.requires_grad then
    { p with data := List.zipWith (fun d g => d - lr * g) p.data grad }
  else p

/-!
## The forward transform

Line 60: return x + (1.0/self.alpha) * pow(sin(x * self.alpha), 2).
self.alpha is 1-D and broadcasts against the trailing dimension of x by
the standard rule: sizes must be equal, or a size-1 operand is expanded
to the other size, otherwise the operation raises.
-/

/-- Elementwise binary operation on two 1-D tensors under the broadcast
rule of the host tensor engine: equal lengths act pointwise, a length-1
operand is expanded, anything else is a shape error (none). -/
def bcast2 {α : Type} [Inhabited α] (f : α → α → α) (u v : List α) : Option (List α) :=
  if u.length = v.length then some (List.zipWith f u v)
  else if u.length = 1 then some (v.map (f u.headI))
  else if v.length = 1 then some (u.map (fun a => f a v.headI))
  else none

/-- Applies a fallible row operation to every row of a 2-D tensor,
propagating a shape error. -/
def rowsMapM {α : Type} (f : List α → Option (List α)) :
    List (List α) → Option (List (List α))
  | [] => some []
  | r :: rs =>
      match f r, rowsMapM f rs with
      | some w, some ws => some (w :: ws)
      | _, _ => none

/-- Elementwise binary operation between two 2-D tensors with the same
number of rows, broadcasting within each pair of rows (forward only ever
adds tensors whose row counts already agree). -/
def addRows {α : Type} [Inhabited α] (f : α → α → α) :
    List (List α) → List (List α) → Option (List (List α))
  | [], [] => some []
  | u :: us, v :: vs =>
      match bcast2 f u v, addRows f us vs with
      | some w, some ws => some (w :: ws)
      | _, _ => none
  | _, _ => none

/-- Elementwise unary map over a 2-D tensor. -/
def tMap {α β : Type} (f : α → β) (x : List (List α)) : List (List β) :=
  x.map (List.map f)

/-- The expression of line 60 with its scalar operations abstracted:
first x * alpha (trailing-dimension broadcast), then sin elementwise, then
pow(., 2) elementwise, then (1.0/alpha) * (.) (broadcast again), finally
x + (.).  forwardCore and forwardFV instantiate the operations with the
real-valued and the extended-value arithmetic respectively. -/
def bcastPipeline {α : Type} [Inhabited α] (mul add : α → α → α)
    (sinF sqF invF : α → α) (w : List α) (x : List (List α)) :
    Option (List (List α)) :=
  (rowsMapM (fun row => bcast2 mul row w) x).bind fun s =>
    (rowsMapM (fun row => bcast2 mul (w.map invF) row)
      (tMap sqF (tMap sinF s))).bind fun q =>
      addRows add x q

/-- The body of Snake.forward as a function of the tensor read from
self.alpha: x + (1.0/alpha) * pow(sin(x * alpha), 2), each operation
broadcasting as in the source; sinK is the sine of the host engine. -/
def forwardCore {K : Type} [LinearOrderedField K] [Inhabited K] (sinK : K → K)
    (alpha : List K) (x : List (List K)) : Option (List (List K)) :=
  bcastPipeline (fun a b => a * b) (fun a b => a + b)
    sinK (fun r => r ^ (2 : ℕ)) (fun a => (1.0 : K) / a) alpha x

/-- Snake.forward(self, x): reads self.alpha and returns the transform;
the method body is a single return expression. -/
def Snake.forward {K : Type} [LinearOrderedField K] [Inhabited K] (sinK : K → K)
    (self : Snake K) (x : List (List K)) : Option (List (List K)) :=
  forwardCore sinK self.alpha.data x

/-- Snake.forward viewed as a state transformer on the module: the result
paired with the module state after the call (the body contains no
assignment, so the state is returned as read). -/
def Snake.forwardM {K : Type} [LinearOrderedField K] [Inhabited K] (sinK : K → K)
    (self : Snake K) (x : List (List K)) : Snake K × Option (List (List K)) :=
  (self, Snake.forward sinK self x)

/-- The elementwise semantics of line 60 on one scalar entry x against one
parameter entry a. -/
def snakeFn {K : Type} [LinearOrderedField K] (sinK : K → K) (a x : K) : K :=
  x + (1.0 : K) / a * sinK (x * a) ^ (2 : ℕ)

/-!
## Extended values: division by zero

Machine floats do not raise on 1.0/0.0; they produce an infinity, and
inf * 0.0 produces NaN.  To settle the division-by-zero claim we refine
the scalar domain to finite values, two infinities and a NaN, with the
IEEE-754 propagation rules for the operations forward uses.  We do not
model signed zero: a positive finite value divided by zero yields +inf,
as for +0.0 in torch.
-/

/-- An extended machine value: finite, plus-infinity, minus-infinity or
NaN. -/
inductive FV (K : Type) where
  | fin : K → FV K
  | inf : FV K
  | ninf : FV K
  | nan : FV K
deriving DecidableEq, Repr

instance {K : Type} : Inhabited (FV K) := ⟨FV.nan⟩

/-- IEEE-style multiplication: NaN propagates; an infinity times zero is
NaN, otherwise signs multiply. -/
def fmul {K : Type} [LinearOrderedField K] : FV K → FV K → FV K
  | FV.nan, _ => FV.nan
  | _, FV.nan => FV.nan
  | FV.fin a, FV.fin b => FV.fin (a * b)
  | FV.inf, FV.fin b => if b = 0 then FV.nan else if 0 < b then FV.inf else FV.ninf
  | FV.fin a, FV.inf => if a = 0 then FV.nan else if 0 < a then FV.inf else FV.ninf
  | FV.ninf, FV.fin b => if b = 0 then FV.nan else if 0 < b then FV.ninf else FV.inf
  | FV.fin a, FV.ninf => if a = 0 then FV.nan else if 0 < a then FV.ninf else FV.inf
  | FV.inf, FV.inf => FV.inf
  | FV.inf, FV.ninf => FV.ninf
  | FV.ninf, FV.inf => FV.ninf
  | FV.ninf, FV.ninf => FV.inf

/-- IEEE-style division: NaN propagates; a nonzero finite value divided by
zero is a signed infinity, zero by zero is NaN; a finite value divided by
an infinity is zero; infinity by infinity is NaN. -/
def fdiv {K : Type} [LinearOrderedField K] : FV K → FV K → FV K
  | FV.nan, _ => FV.nan
  | _, FV.nan => FV.nan
  | FV.fin a, FV.fin b =>
      if b = 0 then (if a = 0 then FV.nan else if 0 < a then FV.inf else FV.ninf)
      else FV.fin (a / b)
  | FV.fin _, FV.inf => FV.fin 0
  | FV.fin _, FV.ninf => FV.fin 0
  | FV.inf, FV.fin b => if 0 ≤ b then FV.inf else FV.ninf
  | FV.ninf, FV.fin b => if 0 ≤ b then FV.ninf else FV.inf
  | _, _ => FV.nan

/-- IEEE-style addition: NaN propagates; opposite infinities give NaN. -/
def fadd {K : Type} [LinearOrderedField K] : FV K → FV K → FV K
  | FV.nan, _ => FV.nan
  | _, FV.nan => FV.nan
  | FV.fin a, FV.fin b => FV.fin (a + b)
  | FV.inf, FV.ninf => FV.nan
  | FV.ninf, FV.inf => FV.nan
  | FV.inf, _ => FV.inf
  | _, FV.inf => FV.inf
  | FV.ninf, _ => FV.ninf
  | _, FV.ninf => FV.ninf

/-- sin on extended values: finite on finite input, NaN on infinities and
NaN. -/
def fsin {K : Type} (sinK : K → K) : FV K → FV K
  | FV.fin r => FV.fin (sinK r)
  | _ => FV.nan

/-- pow(v, 2) on extended values, as v * v. -/
def fpow2 {K : Type} [LinearOrderedField K] (v : FV K) : FV K :=
  fmul v v

/-- Line 60 on one scalar entry over extended values:
x + (1.0/a) * pow(sin(x * a), 2). -/
def snakeFnF {K : Type} [LinearOrderedField K] (sinK : K → K) (a x : FV K) : FV K :=
  fadd x (fmul (fdiv (FV.fin 1) a) (fpow2 (fsin sinK (fmul x a))))

/-- Line 60 on tensors of extended values, with the same broadcast
pipeline as forwardCore. -/
def forwardFV {K : Type} [LinearOrderedField K] (sinK : K → K)
    (alpha : List (FV K)) (x : List (List (FV K))) : Option (List (List (FV K))) :=
  bcastPipeline fmul fadd (fsin sinK) fpow2 (fun a => fdiv (FV.fin 1) a) alpha x


/-!
## Basic lemmas about the tensor operations
-/

/-- Shape of a 2-D tensor: the list of its row lengths. -/
def shape2 {α : Type} (x : List (List α)) : List ℕ :=
  x.map List.length

theorem bcast2_eq_len {α : Type} [Inhabited α] (f : α → α → α) {u v : List α}
    (h : u.length = v.length) : bcast2 f u v = some (List.zipWith f u v) := by
  simp [bcast2, h]

theorem bcast2_spec {α : Type} [Inhabited α] (f : α → α → α) {u v : List α}
    (h : u.length = v.length ∨ v.length = 1) :
    ∃ w, bcast2 f u v = some w ∧ w.length = u.length := by
  by_cases h2 : u.length = v.length
  · exact ⟨_, bcast2_eq_len f h2, by simp [h2]⟩
  · rcases h with h | h
    · exact absurd h h2
    · have h1 : u.length ≠ 1 := fun hu => h2 (by rw [hu, h])
      exact ⟨u.map (fun a => f a v.headI), by simp [bcast2, h2, h1, h], by simp⟩

theorem bcast2_specL {α : Type} [Inhabited α] (f : α → α → α) {u v : List α}
    (h : u.length = v.length ∨ u.length = 1) :
    ∃ w, bcast2 f u v = some w ∧ w.length = v.length := by
  by_cases h2 : u.length = v.length
  · exact ⟨_, bcast2_eq_len f h2, by simp [h2]⟩
  · rcases h with h | h
    · exact absurd h h2
    · have h3 : ¬(1 : ℕ) = v.length := h ▸ h2
      exact ⟨v.map (f u.headI), by simp [bcast2, h2, h, h3], by simp⟩

theorem rowsMapM_map {α : Type} (f : List α → Option (List α)) (t : List α → List α) :
    ∀ x : List (List α), (∀ row ∈ x, f row = some (t row)) →
    rowsMapM f x = some (x.map t)
  | [], _ => rfl
  | r :: rs, h => by
      have ih := rowsMapM_map f t rs (fun row hr => h row (List.mem_cons_of_mem _ hr))
      simp [rowsMapM, h r (List.mem_cons_self r rs), ih]

theorem rowsMapM_spec {α : Type} (f : List α → Option (List α)) :
    ∀ x : List (List α), (∀ row ∈ x, ∃ w, f row = some w ∧ w.length = row.length) →
    ∃ y, rowsMapM f x = some y ∧ shape2 y = shape2 x
  | [], _ => ⟨[], rfl, rfl⟩
  | r :: rs, h => by
      obtain ⟨w, hw, hl⟩ := h r (List.mem_cons_self r rs)
      obtain ⟨ys, hys, hsh⟩ :=
        rowsMapM_spec f rs (fun row hr => h row (List.mem_cons_of_mem _ hr))
      refine ⟨w :: ys, by simp [rowsMapM, hw, hys], ?_⟩
      simp only [shape2, List.map_cons] at hsh ⊢
      rw [hl, hsh]

theorem addRows_map {α : Type} [Inhabited α] (f : α → α → α) (t : List α → List α) :
    ∀ x : List (List α), (∀ row ∈ x, (t row).length = row.length) →
    addRows f x (x.map t) = some (x.map (fun row => List.zipWith f row (t row)))
  | [], _ => rfl
  | r :: rs, h => by
      have ih := addRows_map f t rs (fun row hr => h row (List.mem_cons_of_mem _ hr))
      simp [addRows, bcast2_eq_len f (h r (List.mem_cons_self r rs)).symm, ih]

theorem addRows_spec {α : Type} [Inhabited α] (f : α → α → α) :
    ∀ x q : List (List α), shape2 q = shape2 x →
    ∃ y, addRows f x q = some y ∧ shape2 y = shape2 x
  | [], [], _ => ⟨[], rfl, rfl⟩
  | [], r :: rs, h => by simp [shape2] at h
  | r :: rs, [], h => by simp [shape2] at h
  | r :: rs, q :: qs, h => by
      simp only [shape2, List.map_cons, List.cons.injEq] at h
      obtain ⟨h1, h2⟩ := h
      obtain ⟨ys, hys, hsh⟩ := addRows_spec f rs qs h2
      refine ⟨List.zipWith f r q :: ys, ?_, ?_⟩
      · simp [addRows, bcast2_eq_len f h1.symm, hys]
      · simp only [shape2, List.map_cons] at hsh ⊢
        rw [hsh, List.length_zipWith, h1, Nat.min_self]

/-- Transport of a property of row lengths along equal shapes. -/
theorem shape2_mem {α β : Type} (Q : ℕ → Prop) {s : List (List α)} {x : List (List β)}
    (h : shape2 s = shape2 x) (hq : ∀ row ∈ x, Q row.length) :
    ∀ row ∈ s, Q row.length := by
  intro row hr
  have hm : row.length ∈ shape2 s := List.mem_map_of_mem _ hr
  rw [h] at hm
  obtain ⟨r0, hr0, he⟩ := List.mem_map.mp hm
  exact he ▸ hq r0 hr0

theorem rowPipeline {α : Type} (add mul1 mul2 : α → α → α) (g h : α → α) :
    ∀ u w : List α,
      List.zipWith add u
        (List.zipWith mul2 (w.map g) ((List.zipWith mul1 u w).map h)) =
      List.zipWith (fun xv av => add xv (mul2 (g av) (h (mul1 xv av)))) u w
  | [], _ => by simp
  | _ :: _, [] => by simp
  | a :: u, b :: w => by
      simp only [List.zipWith_cons_cons, List.map_cons]
      exact congrArg _ (rowPipeline add mul1 mul2 g h u w)

/-- When every row of x has exactly the length of w, the pipeline succeeds
and acts as the elementwise composite of its scalar operations, zipping w
along each row. -/
theorem bcastPipeline_rows {α : Type} [Inhabited α] (mul add : α → α → α)
    (sinF sqF invF : α → α) (w : List α) (x : List (List α))
    (hx : ∀ row ∈ x, row.length = w.length) :
    bcastPipeline mul add sinF sqF invF w x =
      some (x.map fun row =>
        List.zipWith (fun xv av => add xv (mul (invF av) (sqF (sinF (mul xv av)))))
          row w) := by
  have hs1 : rowsMapM (fun row => bcast2 mul row w) x
      = some (x.map fun row => List.zipWith mul row w) :=
    rowsMapM_map _ _ x (fun row hr => bcast2_eq_len _ (hx row hr))
  have hp : tMap sqF (tMap sinF (x.map fun row => List.zipWith mul row w))
      = x.map fun row => ((List.zipWith mul row w).map sinF).map sqF := by
    simp [tMap, List.map_map]
  have hs2 : rowsMapM (fun row => bcast2 mul (w.map invF) row)
      (x.map fun row => ((List.zipWith mul row w).map sinF).map sqF)
      = some (x.map fun row =>
          List.zipWith mul (w.map invF) (((List.zipWith mul row w).map sinF).map sqF)) := by
    have h1 : ∀ row ∈ (x.map fun row => ((List.zipWith mul row w).map sinF).map sqF),
        bcast2 mul (w.map invF) row = some (List.zipWith mul (w.map invF) row) := by
      intro row hr
      obtain ⟨r0, hr0, rfl⟩ := List.mem_map.mp hr
      exact bcast2_eq_len _ (by simp [hx r0 hr0])
    have h2 := rowsMapM_map (fun row => bcast2 mul (w.map invF) row)
      (fun row => List.zipWith mul (w.map invF) row) _ h1
    rw [h2, List.map_map]
    rfl
  have hq := addRows_map add
    (fun row => List.zipWith mul (w.map invF)
      (((List.zipWith mul row w).map sinF).map sqF))
    x (fun row hr => by simp [hx row hr])
  rw [bcastPipeline, hs1, Option.some_bind', hp, hs2, Option.some_bind', hq]
  refine congrArg some (List.map_congr_left (fun row _ => ?_))
  simp only [List.map_map]
  exact rowPipeline add mul mul invF (sqF ∘ sinF) row w

/-- When every row of x is broadcast-compatible with w in the shape-saving
direction (equal trailing sizes, or w of length 1), the pipeline succeeds
and preserves the shape of x. -/
theorem bcastPipeline_shape {α : Type} [Inhabited α] (mul add : α → α → α)
    (sinF sqF invF : α → α) (w : List α) (x : List (List α))
    (hx : ∀ row ∈ x, row.length = w.length ∨ w.length = 1) :
    ∃ y, bcastPipeline mul add sinF sqF invF w x = some y ∧ shape2 y = shape2 x := by
  obtain ⟨s, hs, hsh⟩ := rowsMapM_spec _ x (fun row hr => bcast2_spec mul (hx row hr))
  have hps : shape2 (tMap sqF (tMap sinF s)) = shape2 x := by
    rw [← hsh]; simp [tMap, shape2, List.map_map]
  have hlen : ∀ row ∈ tMap sqF (tMap sinF s), w.length = row.length ∨ w.length = 1 :=
    shape2_mem (fun n => w.length = n ∨ w.length = 1) hps (fun row hr => by
      rcases hx row hr with h | h
      · exact Or.inl h.symm
      · exact Or.inr h)
  obtain ⟨q, hq, hqsh⟩ := rowsMapM_spec
    (fun row => bcast2 mul (w.map invF) row) (tMap sqF (tMap sinF s))
    (fun row hr => bcast2_specL mul (by
      rcases hlen row hr with h | h
      · exact Or.inl (by simp [h])
      · exact Or.inr (by simp [h])))
  obtain ⟨y, hy, hysh⟩ := addRows_spec add x q (hqsh.trans hps)
  exact ⟨y, by rw [bcastPipeline, hs, Option.some_bind', hq, Option.some_bind', hy], hysh⟩

/-!
## Claim theorems
-/

/-- C1: for every input tensor x whose rows have the length of the
parameter vector (a broadcast across all leading dimensions of x) and
every parameter vector with nonzero entries, forward returns
x + (1/a) * sin(a*x)^2 computed independently per element. -/
theorem snake_forward_formula (alpha : List ℝ) (x : List (List ℝ))
    (hx : ∀ row ∈ x, row.length = alpha.length)
    (_ha : ∀ a ∈ alpha, a ≠ 0) :
    forwardCore Real.sin alpha x =
      some (x.map fun row =>
        List.zipWith (fun xv av => xv + 1 / av * Real.sin (av * xv) ^ (2 : ℕ))
          row alpha) := by
  have h := bcastPipeline_rows (fun a b => a * b) (fun a b => a + b)
    Real.sin (fun r => r ^ (2 : ℕ)) (fun a => (1.0 : ℝ) / a) alpha x hx
  refine Eq.trans h ?_
  refine congrArg some (List.map_congr_left fun row _ => ?_)
  congr 1
  funext xv av
  rw [mul_comm av xv]
  norm_num

/-- Witness for C1 at alpha = [1], x = [[0]]. -/
theorem snake_forward_formula_witness :
    forwardCore Real.sin [(1 : ℝ)] [[0]] =
      some ([[(0 : ℝ)]].map fun row =>
        List.zipWith (fun xv av => xv + 1 / av * Real.sin (av * xv) ^ (2 : ℕ))
          row [1]) :=
  snake_forward_formula [1] [[0]] (by simp) (by simp)

/-- C4: construction with alpha = c provided yields a parameter vector a
of length in_features with every entry equal to c. -/
theorem snake_const_init (n : ℤ) (hn : 0 < n) (c : ℝ) (tr : Bool) (e : ℕ → ℝ) :
    ∃ s : Snake ℝ, Snake.init n (some c) tr e = Except.ok s ∧
      (s.alpha.data.length : ℤ) = n ∧ ∀ v ∈ s.alpha.data, v = c := by
  have ht : torchOnes (K := ℝ) n = Except.ok (List.replicate n.toNat 1) := by
    simp [torchOnes, show ¬n < 0 by omega]
  refine ⟨{ in_features := n,
            alpha := setAttr (Parameter.make (List.replicate n.toNat c))
              AttrName.requiresGrad tr }, ?_, ?_, ?_⟩
  · simp only [Snake.init, ht]
    simp [List.map_replicate]
  · simp only [setAttr, Parameter.make]
    simp [Int.toNat_of_nonneg hn.le]
  · simp only [setAttr, Parameter.make]
    intro v hv
    exact List.eq_of_mem_replicate hv

/-- Witness for C4 at in_features = 2, c = 5. -/
theorem snake_const_init_witness :
    ∃ s : Snake ℝ, Snake.init 2 (some 5) true (fun _ => 1) = Except.ok s ∧
      (s.alpha.data.length : ℤ) = 2 ∧ ∀ v ∈ s.alpha.data, v = 5 :=
  snake_const_init 2 (by norm_num) 5 true (fun _ => 1)

/-- C3: the random-init branch never succeeds: construction with no alpha
passes the int in_features itself as sample_shape to Exponential.sample,
which requires an iterable and raises TypeError, so no parameter vector of
length in_features is ever produced in this branch. -/
theorem snake_random_init_crashes (n : ℤ) (tr : Bool) (e : ℕ → ℝ) :
    Snake.init n none tr e = Except.error PyError.typeError := rfl

/-- C2: the trainability flag is wired to a misspelled attribute: line 50
assigns self.alpha.requiresGrad, not requires_grad, so after construction
with alpha_trainable = False the autograd flag is still True, the value
False sits in an inert Python attribute, and an SGD step with gradient [1]
and learning rate 1 changes the entry of a from 1 to 0 instead of leaving
it unchanged. -/
theorem snake_requiresGrad_typo :
    ∃ s : Snake ℝ, Snake.init 1 (some 1) false (fun _ => 1) = Except.ok s ∧
      s.alpha.requires_grad = true ∧
      s.alpha.pyattrs = [(AttrName.requiresGrad, false)] ∧
      s.alpha.data = [1] ∧
      (sgdStep 1 [1] s.alpha).data = [0] := by
  refine ⟨{ in_features := 1,
            alpha := { data := [1], requires_grad := true,
                       pyattrs := [(AttrName.requiresGrad, false)] } },
    ?_, rfl, rfl, rfl, ?_⟩
  · simp [Snake.init, torchOnes, Parameter.make, setAttr, List.replicate]
  · simp [sgdStep]

/-- C8 counterexample: construction with the negative in_features -1 and
alpha provided raises (torch.ones(-1) is a RuntimeError), refuting the
claim that construction with every non-positive in_features completes. -/
theorem snake_init_negative_cex :
    Snake.init (-1) (some 1) true (fun _ => (1 : ℝ))
      = Except.error PyError.runtimeError := by
  simp [Snake.init, torchOnes]

/-- C8 amended: with alpha provided, construction with in_features = 0
completes and returns an instance; construction with negative in_features
raises (a RuntimeError from torch.ones when alpha is provided, a TypeError
from the sampler when it is not). -/
theorem snake_init_nonpositive_amended (c : ℝ) (tr : Bool) (e : ℕ → ℝ) :
    (∃ s : Snake ℝ, Snake.init 0 (some c) tr e = Except.ok s) ∧
    (∀ n : ℤ, n < 0 → ∀ alpha : Option ℝ,
      ∃ er, Snake.init n alpha tr e = Except.error er) := by
  constructor
  · exact ⟨_, rfl⟩
  · intro n hn alpha
    cases alpha with
    | none => exact ⟨PyError.typeError, rfl⟩
    | some c2 =>
        refine ⟨PyError.runtimeError, ?_⟩
        simp [Snake.init, torchOnes, hn]

/-- Witness for the amended C8 at in_features = 0 and -2. -/
theorem snake_init_nonpositive_amended_witness :
    (∃ s : Snake ℝ, Snake.init 0 (some 1) true (fun _ => 1) = Except.ok s) ∧
    (∃ er, Snake.init (-2) (some 1) true (fun _ => (1 : ℝ)) = Except.error er) :=
  ⟨(snake_init_nonpositive_amended 1 true (fun _ => 1)).1,
   (snake_init_nonpositive_amended 1 true (fun _ => 1)).2 (-2) (by norm_num) (some 1)⟩

/-- C7: forward is a pure function of (x, a): the call leaves the module
state (in_features and alpha) unchanged, and its result depends only on x
and the data of alpha, so two invocations with identical x and identical a
return identical results. -/
theorem snake_forward_pure (s : Snake ℝ) (x : List (List ℝ)) :
    (Snake.forwardM Real.sin s x).1 = s ∧
    (Snake.forwardM Real.sin s x).2 = forwardCore Real.sin s.alpha.data x ∧
    ∀ t : Snake ℝ, t.alpha.data = s.alpha.data →
      (Snake.forwardM Real.sin t x).2 = (Snake.forwardM Real.sin s x).2 := by
  refine ⟨rfl, rfl, fun t ht => ?_⟩
  simp [Snake.forwardM, Snake.forward, ht]

/-- Witness for C7: two modules with the same parameter data but different
in_features and flags produce the same output. -/
theorem snake_forward_pure_witness :
    (Snake.forwardM Real.sin { in_features := 1, alpha := Parameter.make [1] } [[0]]).1
        = ({ in_features := 1, alpha := Parameter.make [1] } : Snake ℝ) ∧
    (Snake.forwardM Real.sin
        ({ in_features := 2,
           alpha := { data := [1], requires_grad := false, pyattrs := [] } } : Snake ℝ)
        [[0]]).2
      = (Snake.forwardM Real.sin { in_features := 1, alpha := Parameter.make [1] } [[0]]).2 :=
  ⟨(snake_forward_pure _ _).1,
   (snake_forward_pure { in_features := 1, alpha := Parameter.make [1] } [[0]]).2.2 _ rfl⟩

/-- C6 counterexample: x = [[0]] has trailing dimension 1, which is
broadcast-compatible with the length-2 parameter [1, 2] (a size-1 operand
expands), yet the output has shape [2] while x has shape [1]. -/
theorem snake_forward_shape_cex :
    (∃ y, forwardCore Real.sin [(1 : ℝ), 2] [[0]] = some y ∧ shape2 y = [2]) ∧
    shape2 [[(0 : ℝ)]] = [1] := by
  refine ⟨⟨_, rfl, ?_⟩, rfl⟩
  rfl

/-- C6 amended: the output has exactly the shape of x whenever every row
of x has trailing dimension equal to len(a), or len(a) = 1; when a row of
x has trailing dimension 1 and len(a) > 1, broadcasting instead expands
that row to length len(a). -/
theorem snake_forward_shape_amended (alpha : List ℝ) (x : List (List ℝ))
    (hx : ∀ row ∈ x, row.length = alpha.length ∨ alpha.length = 1) :
    ∃ y, forwardCore Real.sin alpha x = some y ∧ shape2 y = shape2 x :=
  bcastPipeline_shape (fun a b => a * b) (fun a b => a + b) Real.sin
    (fun r => r ^ (2 : ℕ)) (fun a => (1.0 : ℝ) / a) alpha x hx

/-- Witness for the amended C6 at alpha = [1, 2], x = [[0, 0]]. -/
theorem snake_forward_shape_amended_witness :
    ∃ y, forwardCore Real.sin [(1 : ℝ), 2] [[0, 0]] = some y ∧
      shape2 y = shape2 [[(0 : ℝ), 0]] :=
  snake_forward_shape_amended [1, 2] [[0, 0]] (by simp)

/-- Each scalar output of the transform lies between its input and the
input shifted by 1/a, when a is positive. -/
theorem snakeFn_bounds (a x : ℝ) (ha : 0 < a) :
    x ≤ snakeFn Real.sin a x ∧ snakeFn Real.sin a x ≤ x + 1 / a := by
  have h1 : 0 ≤ Real.sin (x * a) ^ (2 : ℕ) := sq_nonneg _
  have h2 : Real.sin (x * a) ^ (2 : ℕ) ≤ 1 := Real.sin_sq_le_one _
  have h3 : (0 : ℝ) < 1 / a := by positivity
  have h4 : 0 ≤ 1 / a * Real.sin (x * a) ^ (2 : ℕ) := mul_nonneg h3.le h1
  have h5 : 1 / a * Real.sin (x * a) ^ (2 : ℕ) ≤ 1 / a := by
    calc 1 / a * Real.sin (x * a) ^ (2 : ℕ) ≤ 1 / a * 1 :=
          mul_le_mul_of_nonneg_left h2 h3.le
      _ = 1 / a := mul_one _
  have e : snakeFn Real.sin a x = x + 1 / a * Real.sin (x * a) ^ (2 : ℕ) := by
    unfold snakeFn
    norm_num
  rw [e]
  constructor
  · linarith
  · linarith

/-- C9: with a strictly positive parameter vector and rows of x matching
its length, every output element lies between the corresponding input
element and that element plus 1/a at its channel: the periodic term adds a
non-negative perturbation of at most 1/a per element. -/
theorem snake_forward_bounds (alpha : List ℝ) (x : List (List ℝ))
    (hx : ∀ row ∈ x, row.length = alpha.length)
    (ha : ∀ a ∈ alpha, 0 < a) :
    ∃ y, forwardCore Real.sin alpha x = some y ∧
      ∀ i j, i < x.length → j < alpha.length →
        (x.getD i []).getD j 0 ≤ (y.getD i []).getD j 0 ∧
        (y.getD i []).getD j 0 ≤ (x.getD i []).getD j 0 + 1 / alpha.getD j 0 := by
  have h : forwardCore Real.sin alpha x
      = some (x.map fun row =>
          List.zipWith (fun xv av => snakeFn Real.sin av xv) row alpha) :=
    bcastPipeline_rows (fun a b => a * b) (fun a b => a + b) Real.sin
      (fun r => r ^ (2 : ℕ)) (fun a => (1.0 : ℝ) / a) alpha x hx
  refine ⟨_, h, ?_⟩
  intro i j hi hj
  have hiy : i < (List.map (fun row =>
      List.zipWith (fun xv av => snakeFn Real.sin av xv) row alpha) x).length := by
    simpa using hi
  rw [List.getD_eq_getElem _ _ hi, List.getD_eq_getElem _ _ hiy, List.getElem_map]
  have hr : x[i] ∈ x := List.getElem_mem hi
  have hrl : x[i].length = alpha.length := hx _ hr
  have hjz : j < (List.zipWith (fun xv av => snakeFn Real.sin av xv) x[i] alpha).length := by
    simp [List.length_zipWith, hrl, hj]
  have hjx : j < x[i].length := by rw [hrl]; exact hj
  rw [List.getD_eq_getElem _ _ hjz, List.getD_eq_getElem _ _ hjx,
    List.getD_eq_getElem _ _ hj, List.getElem_zipWith]
  exact snakeFn_bounds alpha[j] (x[i])[j] (ha _ (List.getElem_mem hj))

/-- Witness for C9 at alpha = [1], x = [[0]]. -/
theorem snake_forward_bounds_witness :
    ∃ y, forwardCore Real.sin [(1 : ℝ)] [[0]] = some y ∧
      ∀ i j, i < [[(0 : ℝ)]].length → j < [(1 : ℝ)].length →
        ([[(0 : ℝ)]].getD i []).getD j 0 ≤ (y.getD i []).getD j 0 ∧
        (y.getD i []).getD j 0 ≤ ([[(0 : ℝ)]].getD i []).getD j 0 + 1 / [(1 : ℝ)].getD j 0 :=
  snake_forward_bounds [1] [[0]] (by simp) (by simp)

/-- One scalar element of line 60 over extended values with a zero
parameter entry: for finite x, 1.0/0.0 is +inf, x * 0.0 is 0.0,
sin(0.0)^2 is 0.0, and inf * 0.0 is NaN; for infinite or NaN x, NaN
propagates through the same chain — so the element always evaluates to
NaN. -/
theorem snakeFnF_zero (v : FV ℝ) :
    snakeFnF Real.sin (FV.fin 0) v = FV.nan := by
  cases v <;> simp [snakeFnF, fmul, fsin, fpow2, fdiv, fadd]

/-- C5: over machine arithmetic, if an entry of a is exactly 0 then the
forward transform produces NaN at every element of that channel: the
division-by-zero condition is always surfaced in the output (as NaN,
since the tensor engine does not raise), never silently recovered. -/
theorem snake_forward_zero_alpha_nan (alpha : List (FV ℝ)) (x : List (List (FV ℝ)))
    (hx : ∀ row ∈ x, row.length = alpha.length)
    (j : ℕ) (hj : j < alpha.length) (hz : alpha.getD j FV.nan = FV.fin 0) :
    ∃ y, forwardFV Real.sin alpha x = some y ∧
      ∀ i, i < x.length → (y.getD i []).getD j FV.nan = FV.nan := by
  have h : forwardFV Real.sin alpha x
      = some (x.map fun row =>
          List.zipWith (fun xv av => snakeFnF Real.sin av xv) row alpha) :=
    bcastPipeline_rows fmul fadd (fsin Real.sin) fpow2
      (fun a => fdiv (FV.fin 1) a) alpha x hx
  refine ⟨_, h, ?_⟩
  intro i hi
  have hiy : i < (List.map (fun row =>
      List.zipWith (fun xv av => snakeFnF Real.sin av xv) row alpha) x).length := by
    simpa using hi
  rw [List.getD_eq_getElem _ _ hiy, List.getElem_map]
  have hr : x[i] ∈ x := List.getElem_mem hi
  have hrl : x[i].length = alpha.length := hx _ hr
  have hjz : j < (List.zipWith (fun xv av => snakeFnF Real.sin av xv) x[i] alpha).length := by
    simp [List.length_zipWith, hrl, hj]
  rw [List.getD_eq_getElem _ _ hjz, List.getElem_zipWith]
  have hzj : alpha[j] = FV.fin 0 := (List.getD_eq_getElem alpha FV.nan hj).symm.trans hz
  rw [hzj]
  exact snakeFnF_zero _

/-- Witness for C5 at a = [0.0], x = [[5.0]]. -/
theorem snake_forward_zero_alpha_nan_witness :
    ∃ y, forwardFV Real.sin [FV.fin (0 : ℝ)] [[FV.fin 5]] = some y ∧
      ∀ i, i < [[FV.fin (5 : ℝ)]].length → (y.getD i []).getD 0 FV.nan = FV.nan :=
  snake_forward_zero_alpha_nan [FV.fin 0] [[FV.fin 5]]
    (by simp) 0 (by simp) rfl

/-- C10: for every nonzero scalar parameter a, the residual of the
elementwise transform is periodic in x with period pi/a. -/
theorem snake_residual_periodic (a x : ℝ) (ha : a ≠ 0) :
    snakeFn Real.sin a (x + Real.pi / a) - (x + Real.pi / a)
      = snakeFn Real.sin a x - x := by
  unfold snakeFn
  have h : (x + Real.pi / a) * a = x * a + Real.pi := by
    rw [add_mul, div_mul_cancel₀ _ ha]
  rw [h, Real.sin_add_pi]
  ring

/-- Witness for C10 at a = 1, x = 0. -/
theorem snake_residual_periodic_witness :
    snakeFn Real.sin 1 (0 + Real.pi / 1) - (0 + Real.pi / 1)
      = snakeFn Real.sin 1 0 - 0 :=
  snake_residual_periodic 1 0 one_ne_zero
